import Mathlib

/-!
Verification development for the caput distributed-array core
(`src/caput/mpiarray.py`).

The Python source is shallowly embedded: pure index and metadata
computations become Lean functions on `Nat` / `Int`, the per-rank local
buffers become explicit lists or functions, and code paths that raise
Python exceptions return `Except` / `Option` values.  The balanced-split
helpers (`mpiutil.split_local`, `mpiutil.split_all`, `mpiutil.split_m`)
live in `caput/mpiutil.py`, which is not part of the sources available
here; they are modelled from the specification's formula.
-/

namespace Caput

/-- Modelled from the spec: `mpiutil.split_m` / `split_local` are not in the
available sources.  The spec states the balanced split gives rank `r` the
extent `n // size + (1 if r < n % size else 0)`. -/
def splitExtent (n size r : Nat) : Nat :=
  n / size + (if r < n % size then 1 else 0)

/-- Modelled from the spec: offsets of the balanced split are the exclusive
prefix sum of the extents; this is its closed form. -/
def splitOffset (n size r : Nat) : Nat :=
  r * (n / size) + min r (n % size)

theorem splitOffset_zero (n size : Nat) : splitOffset n size 0 = 0 := by
  simp [splitOffset]

theorem splitOffset_succ (n size r : Nat) :
    splitOffset n size (r + 1) = splitOffset n size r + splitExtent n size r := by
  unfold splitOffset splitExtent
  rcases Nat.lt_or_ge r (n % size) with h | h
  · rw [if_pos h]
    have h1 : min r (n % size) = r := by omega
    have h2 : min (r + 1) (n % size) = r + 1 := by omega
    rw [h1, h2, Nat.succ_mul]
    omega
  · rw [if_neg (by omega)]
    have h1 : min r (n % size) = n % size := by omega
    have h2 : min (r + 1) (n % size) = n % size := by omega
    rw [h1, h2, Nat.succ_mul]
    omega

theorem splitOffset_eq_sum (n size r : Nat) :
    splitOffset n size r = ∑ k ∈ Finset.range r, splitExtent n size k := by
  induction r with
  | zero => simp [splitOffset]
  | succ r ih => rw [Finset.sum_range_succ, ← ih, splitOffset_succ]

theorem splitOffset_size (n size : Nat) (h : 0 < size) :
    splitOffset n size size = n := by
  unfold splitOffset
  have hlt : n % size < size := Nat.mod_lt n h
  have h1 : min size (n % size) = n % size := by omega
  rw [h1]
  exact Nat.div_add_mod n size

theorem splitExtent_le_succ (n size r s : Nat) :
    splitExtent n size r ≤ splitExtent n size s + 1 := by
  unfold splitExtent
  split <;> split <;> omega

/-- Rank-search for the rank owning a global index under the balanced split:
walk ranks in order until the index falls before the next offset. -/
def ownerAux (n size j : Nat) : Nat → Nat → Nat
  | 0, r => r
  | fuel + 1, r =>
      if j < splitOffset n size (r + 1) then r else ownerAux n size j fuel (r + 1)

/-- The rank whose balanced-split range contains global index `j`. -/
def owner (n size j : Nat) : Nat := ownerAux n size j size 0

theorem ownerAux_spec (n size j : Nat) :
    ∀ fuel r, splitOffset n size r ≤ j → j < splitOffset n size (r + fuel) →
      splitOffset n size (ownerAux n size j fuel r) ≤ j ∧
      j < splitOffset n size (ownerAux n size j fuel r + 1) ∧
      ownerAux n size j fuel r < r + fuel := by
  intro fuel
  induction fuel with
  | zero =>
      intro r h1 h2
      rw [Nat.add_zero] at h2
      exact ((Nat.not_lt.mpr h1) h2).elim
  | succ fuel ih =>
      intro r h1 h2
      by_cases hc : j < splitOffset n size (r + 1)
      · simp only [ownerAux, if_pos hc]
        exact ⟨h1, hc, by omega⟩
      · simp only [ownerAux, if_neg hc]
        have h2a : j < splitOffset n size ((r + 1) + fuel) := by
          have he : (r + 1) + fuel = r + (fuel + 1) := by omega
          rw [he]; exact h2
        have := ih (r + 1) (Nat.le_of_not_lt hc) h2a
        exact ⟨this.1, this.2.1, by omega⟩

theorem owner_spec (n size j : Nat) (hs : 0 < size) (hj : j < n) :
    splitOffset n size (owner n size j) ≤ j ∧
    j < splitOffset n size (owner n size j + 1) ∧
    owner n size j < size := by
  have h0 : splitOffset n size 0 ≤ j := by simp [splitOffset]
  have h1 : j < splitOffset n size (0 + size) := by
    rw [Nat.zero_add, splitOffset_size n size hs]; exact hj
  have := ownerAux_spec n size j size 0 h0 h1
  simpa [owner] using this

/-- Claim C1: for every global extent `n` and communicator size `size > 0`,
the balanced split gives rank `r` the extent `n / size + (1 if r < n % size)`
with offsets equal to the exclusive prefix sum of the extents, the per-rank
extents sum exactly to `n`, the ranges are contiguous and gap-free in rank
order (each rank's range starts where the previous one ends), and any two
per-rank extents differ by at most one. -/
theorem c1_balanced_split (n size : Nat) (h : 0 < size) :
    (∀ r, splitOffset n size r = ∑ k ∈ Finset.range r, splitExtent n size k) ∧
    (∑ r ∈ Finset.range size, splitExtent n size r = n) ∧
    (∀ r, splitOffset n size (r + 1) = splitOffset n size r + splitExtent n size r) ∧
    (∀ r s, splitExtent n size r ≤ splitExtent n size s + 1) := by
  refine ⟨fun r => splitOffset_eq_sum n size r, ?_, fun r => splitOffset_succ n size r,
    fun r s => splitExtent_le_succ n size r s⟩
  rw [← splitOffset_eq_sum]
  exact splitOffset_size n size h

theorem c1_balanced_split_witness :
    0 < 3 ∧
    ((∀ r, splitOffset 7 3 r = ∑ k ∈ Finset.range r, splitExtent 7 3 k) ∧
      (∑ r ∈ Finset.range 3, splitExtent 7 3 r = 7) ∧
      (∀ r, splitOffset 7 3 (r + 1) = splitOffset 7 3 r + splitExtent 7 3 r) ∧
      (∀ r s, splitExtent 7 3 r ≤ splitExtent 7 3 s + 1)) :=
  ⟨by decide, c1_balanced_split 7 3 (by decide)⟩

/-!
## Redistribution (`MPIArray.redistribute`, lines 710-847)

The exchange moves the distributed axis from one axis to another.  Only the
two axes involved are affected — every other axis passes through pointwise —
so the embedding models the logical global array on those two axes: `rows`
is the extent of axis 0 and `cols` the extent of axis 1, and `axis` records
which of the two is distributed.  The element type stays abstract.
-/

/-- The two-axis logical view of an `MPIArray`: global extents of the two
axes taking part in a redistribution, the distributed axis (0 or 1) and the
global content. -/
structure DArray (α : Type) where
  rows : Nat
  cols : Nat
  axis : Nat
  content : Nat → Nat → α

/-- Rank `r`'s local slab (`self.view(np.ndarray)` plus `local_offset`):
the balanced-split range of the distributed axis, full extent elsewhere. -/
def localSlab (size r : Nat) (A : DArray α) : Nat → Nat → α :=
  if A.axis = 0 then fun i j => A.content (splitOffset A.rows size r + i) j
  else fun i j => A.content i (splitOffset A.cols size r + j)

/-- The block a source rank sends to a destination when moving the
distributed axis from 0 to 1: the source's local slab cut along axis 1 at
the destination's target range (`blocks = np.array_split(arr, ..., axis)`,
line 776). -/
def sendBlock01 (size src dst : Nat) (A : DArray α) : Nat → Nat → α :=
  fun i j => localSlab size src A i (splitOffset A.cols size dst + j)

/-- Destination rank `dst`'s assembled buffer when moving the distributed
axis from 0 to 1: the received blocks concatenated in source-rank order
along axis 0 (`np.concatenate(buffers, self.axis, trans_arr)`, line 839).
Row `i` of the concatenation falls inside the block of the source rank
whose axis-0 range contains `i`, at row `i` minus that source's offset. -/
def assembled01 (size dst : Nat) (A : DArray α) : Nat → Nat → α :=
  fun i j =>
    sendBlock01 size (owner A.rows size i) dst A
      (i - splitOffset A.rows size (owner A.rows size i)) j

/-- The block a source rank sends to a destination when moving the
distributed axis from 1 to 0: the source's local slab cut along axis 0 at
the destination's target range. -/
def sendBlock10 (size src dst : Nat) (A : DArray α) : Nat → Nat → α :=
  fun i j => localSlab size src A (splitOffset A.rows size dst + i) j

/-- Destination rank `dst`'s assembled buffer when moving the distributed
axis from 1 to 0: the received blocks concatenated in source-rank order
along axis 1. -/
def assembled10 (size dst : Nat) (A : DArray α) : Nat → Nat → α :=
  fun i j =>
    sendBlock10 size (owner A.cols size j) dst A i
      (j - splitOffset A.cols size (owner A.cols size j))

/-- Reconstruct the logical global array from the per-rank slabs of an array
distributed along `naxis` (the final `MPIArray(...); dist_arr[:] = trans_arr`
step, lines 842-845, viewed globally): position `(i, j)` is read from the
rank whose range on the distributed axis contains it. -/
def globalFromSlabs (rows cols naxis size : Nat) (slab : Nat → Nat → Nat → α) :
    Nat → Nat → α :=
  if naxis = 0 then
    fun i j => slab (owner rows size i) (i - splitOffset rows size (owner rows size i)) j
  else
    fun i j => slab (owner cols size j) i (j - splitOffset cols size (owner cols size j))

/-- The redistribution exchange (`MPIArray.redistribute`, general path plus
the single-process fast path at lines 746-757; the caller guarantees
`newAxis` differs from the current axis when this is reached). -/
def redistribute (size newAxis : Nat) (A : DArray α) : DArray α :=
  if newAxis = A.axis then A
  else if size = 1 then { A with axis := newAxis }
  else if A.axis = 0 then
    { A with axis := newAxis,
             content := globalFromSlabs A.rows A.cols newAxis size
               (fun d => assembled01 size d A) }
  else
    { A with axis := newAxis,
             content := globalFromSlabs A.rows A.cols newAxis size
               (fun d => assembled10 size d A) }

/-- The full `redistribute` entry: the same-axis fast path returns the input
(line 726-727), an element type with no MPI wire mapping warns and returns
the input unchanged (lines 729-741; the Bool records whether the warning was
emitted), and otherwise the exchange runs. -/
def redistributeChecked (size newAxis : Nat) (A : DArray α) (supported : Bool) :
    DArray α × Bool :=
  if newAxis = A.axis then (A, false)
  else if supported = false then (A, true)
  else (redistribute size newAxis A, false)

theorem redistribute_shape (size newAxis : Nat) (A : DArray α) :
    (redistribute size newAxis A).rows = A.rows ∧
    (redistribute size newAxis A).cols = A.cols := by
  unfold redistribute
  split
  · exact ⟨rfl, rfl⟩
  · split
    · exact ⟨rfl, rfl⟩
    · split <;> exact ⟨rfl, rfl⟩

theorem redistribute_axis (size newAxis : Nat) (A : DArray α)
    (hne : newAxis ≠ A.axis) : (redistribute size newAxis A).axis = newAxis := by
  unfold redistribute
  rw [if_neg hne]
  split
  · rfl
  · split <;> rfl

theorem redistribute_content (size newAxis : Nat) (A : DArray α) (hs : 0 < size)
    (ha : A.axis < 2) (hn : newAxis < 2) (hne : newAxis ≠ A.axis)
    (i j : Nat) (hi : i < A.rows) (hj : j < A.cols) :
    (redistribute size newAxis A).content i j = A.content i j := by
  unfold redistribute
  rw [if_neg hne]
  by_cases h1 : size = 1
  · rw [if_pos h1]
  · rw [if_neg h1]
    by_cases h0 : A.axis = 0
    · -- moving axis 0 to axis 1
      have hn1 : newAxis = 1 := by omega
      rw [if_pos h0]
      simp only [globalFromSlabs, hn1, assembled01, sendBlock01, localSlab, h0,
        if_true, eq_self_iff_true, Nat.one_ne_zero, if_false]
      have hrow := owner_spec A.rows size i hs hi
      have hcol := owner_spec A.cols size j hs hj
      have e1 : splitOffset A.rows size (owner A.rows size i) +
          (i - splitOffset A.rows size (owner A.rows size i)) = i := by omega
      have e2 : splitOffset A.cols size (owner A.cols size j) +
          (j - splitOffset A.cols size (owner A.cols size j)) = j := by omega
      rw [e1, e2]
    · -- moving axis 1 to axis 0
      have ha1 : A.axis = 1 := by omega
      have hn0 : newAxis = 0 := by omega
      rw [if_neg h0]
      simp only [globalFromSlabs, hn0, assembled10, sendBlock10, localSlab, ha1,
        if_true, eq_self_iff_true, Nat.one_ne_zero, if_false]
      have hrow := owner_spec A.rows size i hs hi
      have hcol := owner_spec A.cols size j hs hj
      have e1 : splitOffset A.rows size (owner A.rows size i) +
          (i - splitOffset A.rows size (owner A.rows size i)) = i := by omega
      have e2 : splitOffset A.cols size (owner A.cols size j) +
          (j - splitOffset A.cols size (owner A.cols size j)) = j := by omega
      rw [e1, e2]

/-- Claim C2: redistributing a distributed two-axis array to the other axis
and then back to the original axis reproduces the logical global content
exactly at every in-range position, and the distributed axis returns to the
original one.  The embedding is pure, so the input array is left untouched
by construction, matching the code, which always builds a fresh array on
this path. -/
theorem c2_redistribute_roundtrip (α : Type) (A : DArray α) (size newAxis i j : Nat)
    (hs : 0 < size) (ha : A.axis < 2) (hn : newAxis < 2) (hne : newAxis ≠ A.axis)
    (hi : i < A.rows) (hj : j < A.cols) :
    ((redistributeChecked size A.axis
        (redistributeChecked size newAxis A true).1 true).1).content i j = A.content i j ∧
    ((redistributeChecked size A.axis
        (redistributeChecked size newAxis A true).1 true).1).axis = A.axis := by
  have hB : (redistributeChecked size newAxis A true).1 = redistribute size newAxis A := by
    unfold redistributeChecked
    rw [if_neg hne]
    rfl
  set B := redistribute size newAxis A with hBdef
  have hBax : B.axis = newAxis := redistribute_axis size newAxis A hne
  have hBrows : B.rows = A.rows := (redistribute_shape size newAxis A).1
  have hBcols : B.cols = A.cols := (redistribute_shape size newAxis A).2
  have hne2 : A.axis ≠ B.axis := by rw [hBax]; exact fun h => hne h.symm
  have hC : (redistributeChecked size A.axis B true).1 = redistribute size A.axis B := by
    unfold redistributeChecked
    rw [if_neg hne2]
    rfl
  rw [hB, hC]
  constructor
  · rw [redistribute_content size A.axis B hs (by omega) ha hne2 i j
      (by rw [hBrows]; exact hi) (by rw [hBcols]; exact hj)]
    exact redistribute_content size newAxis A hs ha hn hne i j hi hj
  · exact redistribute_axis size A.axis B hne2

theorem c2_redistribute_roundtrip_witness :
    (0 < 2 ∧ (0 : Nat) < 2 ∧ (1 : Nat) < 2 ∧ (1 : Nat) ≠ 0 ∧ 1 < 2 ∧ 2 < 3) ∧
    (((redistributeChecked 2 0
        (redistributeChecked 2 1 (DArray.mk 2 3 0 (fun i j => (i * 3 + j : Int))) true).1
        true).1).content 1 2 = (1 * 3 + 2 : Int) ∧
      ((redistributeChecked 2 0
        (redistributeChecked 2 1 (DArray.mk 2 3 0 (fun i j => (i * 3 + j : Int))) true).1
        true).1).axis = 0) :=
  ⟨⟨by decide, by decide, by decide, by decide, by decide, by decide⟩,
    c2_redistribute_roundtrip Int (DArray.mk 2 3 0 (fun i j => (i * 3 + j : Int)))
      2 1 1 2 (by decide) (by decide) (by decide) (by decide) (by decide) (by decide)⟩

/-- Claim C9: redistributing an array whose element type has no MPI wire
mapping (`mpiutil.typemap` raises `KeyError`) warns and returns the input
array unchanged — a soft failure, not a raised error (lines 729-741). -/
theorem c9_unsupported_type_soft_failure (α : Type) (A : DArray α) (size newAxis : Nat)
    (hne : newAxis ≠ A.axis) :
    redistributeChecked size newAxis A false = (A, true) := by
  unfold redistributeChecked
  rw [if_neg hne]
  rfl

theorem c9_unsupported_type_soft_failure_witness :
    (1 : Nat) ≠ 0 ∧
    redistributeChecked 4 1 (DArray.mk 2 2 0 (fun i j => (i + j : Int))) false =
      (DArray.mk 2 2 0 (fun i j => (i + j : Int)), true) :=
  ⟨by decide,
    c9_unsupported_type_soft_failure Int (DArray.mk 2 2 0 (fun i j => (i + j : Int)))
      4 1 (by decide)⟩

/-!
## Global-slice resolution (`_global_resolver`, lines 254-375)

Only the distributed axis is modelled — the resolver passes every other
axis through unchanged.  `length` is the global extent of the distributed
axis, `offset` this rank's starting global coordinate and `localLen` this
rank's local extent.  Python integers are modelled as `Int`.  The resolver
is a pure function of this rank's metadata and buffer, which is the formal
counterpart of the spec's "never triggers inter-rank communication".
-/

/-- The resolved relative start of a slice on the distributed axis
(lines 311-319): an explicit start resolves negatives against the global
extent and subtracts the local offset; an absent start defaults to 0. -/
def resStart (length offset : Int) : Option Int → Int
  | some s => (if 0 ≤ s then s else s + length) - offset
  | none => 0

/-- The resolved relative stop of a slice on the distributed axis
(lines 321-329): an explicit stop resolves negatives against the global
extent and subtracts the local offset; an absent stop defaults to the local
extent. -/
def resStop (length offset localLen : Int) : Option Int → Int
  | some s => (if 0 ≤ s then s else s + length) - offset
  | none => localLen

/-- Clamping into `[0, localLen]` (`max(min(x, local_length), 0)`,
lines 340-341). -/
def clip (localLen x : Int) : Int := max (min x localLen) 0

/-- `_global_resolver._resolve_slice` on the distributed axis for a slice
subscript (lines 305-342): returns the local slice (or `none` when this
rank holds no data) together with the full-slice flag. -/
def resolveSliceDist (length offset localLen : Int)
    (start? stop? step? : Option Int) : Option (Int × Int × Option Int) × Bool :=
  let start := resStart length offset start?
  let stop := resStop length offset localLen stop?
  let fullslice := start?.isNone && stop?.isNone && step?.isNone
  if localLen ≤ start ∨ stop < 0 then (none, fullslice)
  else (some (clip localLen start, clip localLen stop, step?), fullslice)

/-- `_global_resolver._resolve_slice` on the distributed axis for a single
integer subscript (lines 295-299): the local index, or `none` when it is
not on this rank; an integer subscript always marks the selection
not-full. -/
def resolveIndexDist (offset localLen i : Int) : Option Int × Bool :=
  let index := i - offset
  (if index < 0 ∨ localLen ≤ index then none else some index, false)

/-- The positions selected by a resolved local slice `(a, b, st)` for a
positive step: `a, a + st, ...` below `b` (numpy basic slicing). -/
def slicePositions (a b st : Int) : List Int :=
  ((List.range (b - a).toNat).filter (fun k => k % st.toNat = 0)).map
    (fun k => a + Int.ofNat k)

/-- `_global_resolver.__getitem__` on the distributed axis for a not-full
slice subscript (lines 346-358): `none` where the resolver puts no data on
this rank, otherwise the selected elements of the rank-local buffer. -/
def globalGetDist (length offset localLen : Int) (loc : Int → α)
    (start? stop? step? : Option Int) : Option (List α) :=
  match (resolveSliceDist length offset localLen start? stop? step?).1 with
  | none => none
  | some (a, b, st) => some ((slicePositions a b (st.getD 1)).map loc)

/-- Pointwise assignment of `v` to a set of positions of the local buffer. -/
def applyWrite (loc : Int → α) (poss : List Int) (v : α) : Int → α :=
  fun k => if k ∈ poss then v else loc k

/-- `_global_resolver.__setitem__` on the distributed axis (lines 367-375):
a silent return when this rank resolves to no data, otherwise a write
through the resolved local slice. -/
def globalSetDist (length offset localLen : Int) (loc : Int → α)
    (start? stop? step? : Option Int) (v : α) : Int → α :=
  match (resolveSliceDist length offset localLen start? stop? step?).1 with
  | none => loc
  | some (a, b, st) => applyWrite loc (slicePositions a b (st.getD 1)) v

theorem slicePositions_mem (a b st k : Int) (hk : k ∈ slicePositions a b st) :
    a ≤ k ∧ k < b := by
  rw [slicePositions, List.mem_map] at hk
  obtain ⟨m, hm, hmk⟩ := hk
  obtain ⟨hmr, _⟩ := List.mem_filter.mp hm
  have h2 := List.mem_range.mp hmr
  change a + Int.ofNat m = k at hmk
  rw [Int.ofNat_eq_coe] at hmk
  omega

theorem resolveSliceDist_flag (length offset localLen : Int)
    (start? stop? step? : Option Int) :
    (resolveSliceDist length offset localLen start? stop? step?).2 =
      (start?.isNone && stop?.isNone && step?.isNone) := by
  simp only [resolveSliceDist]
  split <;> rfl

/-- The claim of C3 is falsified by the code at a concrete input: with a
global extent of 4 split over two ranks, the rank holding `[2, 4)` has no
overlap with the global selection `[0:2]`, yet the fetch returns an (empty)
local buffer rather than `None`, because the resolver only reports no data
when the resolved range lies strictly outside `[0, local extent)`. -/
theorem c3_counterexample :
    (∀ k : Int, ¬(0 ≤ k ∧ k < 2 ∧ 2 ≤ k ∧ k < 4)) ∧
    globalGetDist 4 2 2 (fun _ => (0 : Int)) (some 0) (some 2) none ≠ none := by
  constructor
  · intro k
    omega
  · decide

/-- Claim C3 (amended): for a not-full selection on the distributed axis,
the resolver-based fetch returns a plain local buffer on every rank whose
local range overlaps the resolved interval, and returns the no-value result
(`None`) exactly on the ranks whose resolved interval lies strictly outside
the local range (`start ≥ local extent` or `stop < 0`) — a rank without
overlap whose interval merely touches the local range receives an empty
buffer instead of `None`; every rank returning `None` is implied to have no
overlap.  The corresponding assignment is a silent no-op (the local buffer
is unchanged, no error) on every `None` rank, and on the other ranks writes
only inside `[0, local extent)`.  Fetch and assignment are functions of the
rank's own metadata and buffer alone, so no inter-rank communication is
involved. -/
theorem c3_global_fetch_assign (α : Type) (length offset localLen : Int)
    (loc : Int → α) (start? stop? step? : Option Int) (v : α)
    (hL : 0 ≤ localLen) :
    ((∃ k : Int, resStart length offset start? ≤ k ∧
        k < resStop length offset localLen stop? ∧ 0 ≤ k ∧ k < localLen) →
      ∃ buf, globalGetDist length offset localLen loc start? stop? step? = some buf) ∧
    (globalGetDist length offset localLen loc start? stop? step? = none ↔
      (localLen ≤ resStart length offset start? ∨
        resStop length offset localLen stop? < 0)) ∧
    ((localLen ≤ resStart length offset start? ∨
        resStop length offset localLen stop? < 0) →
      ¬∃ k : Int, resStart length offset start? ≤ k ∧
        k < resStop length offset localLen stop? ∧ 0 ≤ k ∧ k < localLen) ∧
    (globalGetDist length offset localLen loc start? stop? step? = none →
      globalSetDist length offset localLen loc start? stop? step? v = loc) ∧
    (∀ k : Int,
      globalSetDist length offset localLen loc start? stop? step? v k ≠ loc k →
        0 ≤ k ∧ k < localLen) := by
  have hiff : globalGetDist length offset localLen loc start? stop? step? = none ↔
      (localLen ≤ resStart length offset start? ∨
        resStop length offset localLen stop? < 0) := by
    unfold globalGetDist resolveSliceDist
    by_cases hc : localLen ≤ resStart length offset start? ∨
        resStop length offset localLen stop? < 0
    · simp only [if_pos hc]
      simpa using hc
    · simp only [if_neg hc]
      simpa using hc
  refine ⟨?_, hiff, ?_, ?_, ?_⟩
  · rintro ⟨k, hk1, hk2, hk3, hk4⟩
    rcases h : globalGetDist length offset localLen loc start? stop? step? with _ | buf
    · rcases hiff.mp h with hc | hc <;> omega
    · exact ⟨buf, rfl⟩
  · rintro hc ⟨k, hk1, hk2, hk3, hk4⟩
    rcases hc with hc | hc <;> omega
  · intro h
    unfold globalSetDist
    unfold globalGetDist at h
    rcases hr : (resolveSliceDist length offset localLen start? stop? step?).1 with
      _ | ⟨a, b, st⟩
    · rfl
    · rw [hr] at h
      simp at h
  · intro k hk
    unfold globalSetDist at hk
    rcases hr : (resolveSliceDist length offset localLen start? stop? step?).1 with
      _ | ⟨a, b, st⟩ <;> rw [hr] at hk
    · simp at hk
    · simp only [applyWrite] at hk
      by_cases hmem : k ∈ slicePositions a b (st.getD 1)
      · have hab := slicePositions_mem a b (st.getD 1) k hmem
        -- the resolved ends are clipped into [0, localLen]
        have hclip : 0 ≤ a ∧ b ≤ localLen := by
          unfold resolveSliceDist at hr
          by_cases hcond : localLen ≤ resStart length offset start? ∨
              resStop length offset localLen stop? < 0
          · rw [if_pos hcond] at hr
            simp at hr
          · rw [if_neg hcond] at hr
            simp only [Option.some.injEq, Prod.mk.injEq, clip] at hr
            omega
        omega
      · rw [if_neg hmem] at hk
        exact (hk rfl).elim

theorem c3_global_fetch_assign_witness :
    (0 : Int) ≤ 2 ∧
    (((∃ k : Int, resStart 4 0 (some 0) ≤ k ∧ k < resStop 4 0 2 (some 2) ∧
          0 ≤ k ∧ k < 2) →
        ∃ buf, globalGetDist 4 0 2 (fun k => k) (some 0) (some 2) none = some buf) ∧
      (globalGetDist 4 0 2 (fun k => k) (some 0) (some 2) none = none ↔
        ((2 : Int) ≤ resStart 4 0 (some 0) ∨ resStop 4 0 2 (some 2) < 0)) ∧
      (((2 : Int) ≤ resStart 4 0 (some 0) ∨ resStop 4 0 2 (some 2) < 0) →
        ¬∃ k : Int, resStart 4 0 (some 0) ≤ k ∧ k < resStop 4 0 2 (some 2) ∧
          0 ≤ k ∧ k < 2) ∧
      (globalGetDist 4 0 2 (fun k => k) (some 0) (some 2) none = none →
        globalSetDist 4 0 2 (fun k => k) (some 0) (some 2) none 7 = fun k => k) ∧
      (∀ k : Int,
        globalSetDist 4 0 2 (fun k => k) (some 0) (some 2) none 7 k ≠ k →
          0 ≤ k ∧ k < 2)) :=
  ⟨by decide,
    c3_global_fetch_assign Int 4 0 2 (fun k => k) (some 0) (some 2) none 7 (by decide)⟩

/-- The claim of C4 is falsified by the code at a concrete input: with a
global extent of 6 split over two ranks of extent 3, on the rank holding
`[3, 6)` the selection `[0:3]` resolves to relative start `-3` and stop `0`,
whose clipped range `[0, 0)` is empty, yet the resolver reports data present
(an empty slice) rather than no-data: the no-data test uses the pre-clip
endpoints only. -/
theorem c4_counterexample :
    (resolveSliceDist 6 3 3 (some 0) (some 3) none).1 ≠ none ∧
    clip 3 (resStart 6 3 (some 0)) = clip 3 (resStop 6 3 3 (some 3)) := by
  constructor
  · decide
  · decide

/-- Claim C4 (amended): for a slice on the distributed axis the resolver
resolves a negative explicit start or stop against the global extent (so a
negative endpoint is interchangeable with its global-extent complement),
marks the selection not-full whenever start, stop or step is explicitly
given and keeps it full when all are absent (start defaulting to 0, stop to
the local extent), clips the resolved endpoints into `[0, local_extent]`,
and reports no-data exactly when the pre-clip resolved range lies strictly
outside the local range (start ≥ local extent or stop < 0) — a resolved
range that is empty after clipping but touches the local range yields an
empty slice, not no-data. -/
theorem c4_resolve_slice (length offset localLen : Int)
    (start? stop? step? : Option Int) (s : Int) (hL : 0 ≤ localLen) :
    (s < 0 → 0 ≤ s + length →
      resolveSliceDist length offset localLen (some s) stop? step? =
        resolveSliceDist length offset localLen (some (s + length)) stop? step?) ∧
    (s < 0 → 0 ≤ s + length →
      resolveSliceDist length offset localLen start? (some s) step? =
        resolveSliceDist length offset localLen start? (some (s + length)) step?) ∧
    ((start?.isSome ∨ stop?.isSome ∨ step?.isSome) →
      (resolveSliceDist length offset localLen start? stop? step?).2 = false) ∧
    (0 < localLen →
      resolveSliceDist length offset localLen none none none =
        (some (0, localLen, none), true)) ∧
    (∀ a b st, (resolveSliceDist length offset localLen start? stop? step?).1 =
        some (a, b, st) →
      0 ≤ a ∧ a ≤ localLen ∧ 0 ≤ b ∧ b ≤ localLen ∧ st = step?) ∧
    ((resolveSliceDist length offset localLen start? stop? step?).1 = none ↔
      (localLen ≤ resStart length offset start? ∨
        resStop length offset localLen stop? < 0)) := by
  refine ⟨?_, ?_, ?_, ?_, ?_, ?_⟩
  · intro hs hsl
    have he : resStart length offset (some s) =
        resStart length offset (some (s + length)) := by
      simp only [resStart]
      rw [if_neg (by omega), if_pos hsl]
    unfold resolveSliceDist
    rw [he]
    simp
  · intro hs hsl
    have he : resStop length offset localLen (some s) =
        resStop length offset localLen (some (s + length)) := by
      simp only [resStop]
      rw [if_neg (by omega), if_pos hsl]
    unfold resolveSliceDist
    rw [he]
    simp
  · intro h
    rw [resolveSliceDist_flag]
    rcases start? with _ | s0 <;> rcases stop? with _ | s1 <;> rcases step? with _ | s2 <;>
      simp_all
  · intro hpos
    simp only [resolveSliceDist, resStart, resStop, clip]
    rw [if_neg (by omega)]
    simp only [Option.some.injEq, Prod.mk.injEq]
    refine ⟨⟨by omega, by omega, trivial⟩, rfl⟩
  · intro a b st h
    unfold resolveSliceDist at h
    by_cases hcond : localLen ≤ resStart length offset start? ∨
        resStop length offset localLen stop? < 0
    · rw [if_pos hcond] at h
      simp at h
    · rw [if_neg hcond] at h
      simp only [Option.some.injEq, Prod.mk.injEq, clip] at h
      refine ⟨by omega, by omega, by omega, by omega, h.2.2.symm⟩
  · unfold resolveSliceDist
    by_cases hc : localLen ≤ resStart length offset start? ∨
        resStop length offset localLen stop? < 0
    · simp only [if_pos hc]
      simpa using hc
    · simp only [if_neg hc]
      simpa using hc

theorem c4_resolve_slice_witness :
    (0 : Int) ≤ 3 ∧
    (((-2 : Int) < 0 → (0 : Int) ≤ -2 + 6 →
        resolveSliceDist 6 0 3 (some (-2)) (some 5) none =
          resolveSliceDist 6 0 3 (some (-2 + 6)) (some 5) none) ∧
      ((-2 : Int) < 0 → (0 : Int) ≤ -2 + 6 →
        resolveSliceDist 6 0 3 (some 1) (some (-2)) none =
          resolveSliceDist 6 0 3 (some 1) (some (-2 + 6)) none) ∧
      (((some (1 : Int)).isSome ∨ (some (5 : Int)).isSome ∨
          (none : Option Int).isSome) →
        (resolveSliceDist 6 0 3 (some 1) (some 5) none).2 = false) ∧
      ((0 : Int) < 3 →
        resolveSliceDist 6 0 3 none none none = (some (0, 3, none), true)) ∧
      (∀ a b st, (resolveSliceDist 6 0 3 (some 1) (some 5) none).1 =
          some (a, b, st) →
        0 ≤ a ∧ a ≤ 3 ∧ 0 ≤ b ∧ b ≤ 3 ∧ st = (none : Option Int)) ∧
      ((resolveSliceDist 6 0 3 (some 1) (some 5) none).1 = none ↔
        ((3 : Int) ≤ resStart 6 0 (some 1) ∨ resStop 6 0 3 (some 5) < 0))) :=
  ⟨by decide, c4_resolve_slice 6 0 3 (some 1) (some 5) none (-2) (by decide)⟩

/-!
## Ufunc dispatch (`MPIArray.__array_ufunc__` and `_mpi_to_ndarray`,
lines 1339-1440 and 1577-1619)

Operands are either distributed arrays (carrying their distributed axis)
or plain arrays.  `_mpi_to_ndarray` walks the operands, records the first
distributed axis seen and raises `AxisException` on any mismatch; the
dispatcher then rejects an explicit `axis` keyword equal to the distributed
axis, runs the primitive locally, and wraps a non-reducing result over the
same distributed axis.
-/

/-- A ufunc operand: a distributed array with its distributed axis, or a
plain ndarray. -/
inductive UOperand (α : Type) where
  | mpi (ax : Nat) (data : α)
  | plain (data : α)

/-- The distributed axes of the distributed-array operands, in order. -/
def mpiAxes : List (UOperand α) → List Nat
  | [] => []
  | .mpi ax _ :: rest => ax :: mpiAxes rest
  | .plain _ :: rest => mpiAxes rest

/-- The loop of `_mpi_to_ndarray` (lines 1594-1619), tracking the first
distributed axis seen and raising on a mismatch. -/
def distAxisFold : List (UOperand α) → Option Nat → Except String (Option Nat)
  | [], d => .ok d
  | .mpi ax _ :: rest, d =>
      match d with
      | none => distAxisFold rest (some ax)
      | some d0 =>
          if d0 ≠ ax then
            .error "The distributed axis for all MPIArrays in an expression should be the same"
          else distAxisFold rest (some d0)
  | .plain _ :: rest, d => distAxisFold rest d

/-- `_mpi_to_ndarray`: the common distributed axis of the operands (or the
mismatch error). -/
def mpiToNdarray (inputs : List (UOperand α)) : Except String (Option Nat) :=
  distAxisFold inputs none

/-- `__array_ufunc__` for a non-reducing (elementwise) call without an `out`
argument, at the metadata level: the distributed axis of the wrapped result.
The operand conversion runs first (line 1379) and may raise the mismatch
error; then an explicit `axis` keyword equal to the distributed axis raises
(lines 1381-1385); otherwise the local primitive runs and the non-scalar
result is wrapped over the same distributed axis (line 1434).  The numpy
protocol only invokes the handler with at least one `MPIArray` operand; the
no-distributed-operand case cannot arise and is mapped to an error. -/
def arrayUfuncCall (inputs : List (UOperand α)) (axisKw : Option Nat) :
    Except String Nat :=
  match mpiToNdarray inputs with
  | .error e => .error e
  | .ok none => .error "no distributed operand"
  | .ok (some d) =>
      if axisKw = some d then
        .error "operations along the distributed axis are not allowed"
      else .ok d

theorem distAxisFold_ok_of_all_eq (inputs : List (UOperand α)) (a : Nat)
    (h : ∀ x ∈ mpiAxes inputs, x = a) :
    distAxisFold inputs (some a) = .ok (some a) := by
  induction inputs with
  | nil => rfl
  | cons hd rest ih =>
      cases hd with
      | mpi ax data =>
          have hax : ax = a := h ax (by simp [mpiAxes])
          subst hax
          have hrest : ∀ x ∈ mpiAxes rest, x = ax := by
            intro x hx
            exact h x (by simp [mpiAxes, hx])
          simp only [distAxisFold]
          rw [if_neg (by simp)]
          exact ih hrest
      | plain data =>
          have hrest : ∀ x ∈ mpiAxes rest, x = a := by
            intro x hx
            exact h x (by simpa [mpiAxes] using hx)
          simpa [distAxisFold] using ih hrest

theorem mpiToNdarray_ok_of_all_eq (inputs : List (UOperand α)) (a : Nat)
    (hne : mpiAxes inputs ≠ []) (h : ∀ x ∈ mpiAxes inputs, x = a) :
    mpiToNdarray inputs = .ok (some a) := by
  induction inputs with
  | nil => exact (hne rfl).elim
  | cons hd rest ih =>
      cases hd with
      | mpi ax data =>
          have hax : ax = a := h ax (by simp [mpiAxes])
          have hrest : ∀ x ∈ mpiAxes rest, x = a := by
            intro x hx
            exact h x (by simp [mpiAxes, hx])
          simp only [mpiToNdarray, distAxisFold]
          rw [hax]
          exact distAxisFold_ok_of_all_eq rest a hrest
      | plain data =>
          have hrest : ∀ x ∈ mpiAxes rest, x = a := by
            intro x hx
            exact h x (by simpa [mpiAxes] using hx)
          have hne2 : mpiAxes rest ≠ [] := by simpa [mpiAxes] using hne
          simpa [mpiToNdarray, distAxisFold] using ih hne2 hrest

theorem distAxisFold_error_of_ne (inputs : List (UOperand α)) (a : Nat)
    (h : ∃ x ∈ mpiAxes inputs, x ≠ a) :
    ∃ e, distAxisFold inputs (some a) = .error e := by
  induction inputs generalizing a with
  | nil => simp [mpiAxes] at h
  | cons hd rest ih =>
      cases hd with
      | mpi ax data =>
          by_cases hax : a = ax
          · subst hax
            have hrest : ∃ x ∈ mpiAxes rest, x ≠ a := by
              rcases h with ⟨x, hx, hxa⟩
              simp only [mpiAxes, List.mem_cons] at hx
              rcases hx with rfl | hx
              · exact (hxa rfl).elim
              · exact ⟨x, hx, hxa⟩
            simpa [distAxisFold] using ih a hrest
          · have hEq : distAxisFold (UOperand.mpi ax data :: rest) (some a) =
                .error "The distributed axis for all MPIArrays in an expression should be the same" := by
              simp only [distAxisFold]
              rw [if_pos hax]
            exact ⟨_, hEq⟩
      | plain data =>
          have hrest : ∃ x ∈ mpiAxes rest, x ≠ a := by
            rcases h with ⟨x, hx, hxa⟩
            exact ⟨x, by simpa [mpiAxes] using hx, hxa⟩
          simpa [distAxisFold] using ih a hrest

theorem mpiToNdarray_error_of_mismatch (inputs : List (UOperand α))
    (h : ∃ x ∈ mpiAxes inputs, ∃ y ∈ mpiAxes inputs, x ≠ y) :
    ∃ e, mpiToNdarray inputs = .error e := by
  induction inputs with
  | nil => simp [mpiAxes] at h
  | cons hd rest ih =>
      cases hd with
      | mpi ax data =>
          simp only [mpiToNdarray, distAxisFold]
          by_cases hall : ∀ x ∈ mpiAxes rest, x = ax
          · rcases h with ⟨x, hx, y, hy, hxy⟩
            simp only [mpiAxes, List.mem_cons] at hx hy
            have hx2 : x = ax := by
              rcases hx with rfl | hx
              · rfl
              · exact hall x hx
            have hy2 : y = ax := by
              rcases hy with rfl | hy
              · rfl
              · exact hall y hy
            exact (hxy (hx2.trans hy2.symm)).elim
          · push_neg at hall
            rcases hall with ⟨x, hx, hxa⟩
            exact distAxisFold_error_of_ne rest ax ⟨x, hx, hxa⟩
      | plain data =>
          have hrest : ∃ x ∈ mpiAxes rest, ∃ y ∈ mpiAxes rest, x ≠ y := by
            rcases h with ⟨x, hx, y, hy, hxy⟩
            exact ⟨x, by simpa [mpiAxes] using hx, y, by simpa [mpiAxes] using hy, hxy⟩
          simpa [mpiToNdarray, distAxisFold] using ih hrest

/-- Claim C5: ufunc dispatch raises `AxisException` when two distributed
operands carry different distributed axes, raises `AxisException` when an
explicit `axis` keyword equals the common distributed axis, and when all
distributed operands share their axis and no distributed-axis reduction is
requested it succeeds, the non-reducing result keeping the same distributed
axis. -/
theorem c5_ufunc_axis_checks (α : Type) (inputs : List (UOperand α))
    (axisKw : Option Nat) (a : Nat) (hne : mpiAxes inputs ≠ []) :
    ((∃ x ∈ mpiAxes inputs, ∃ y ∈ mpiAxes inputs, x ≠ y) →
      ∃ e, arrayUfuncCall inputs axisKw = .error e) ∧
    ((∀ x ∈ mpiAxes inputs, x = a) → axisKw = some a →
      ∃ e, arrayUfuncCall inputs axisKw = .error e) ∧
    ((∀ x ∈ mpiAxes inputs, x = a) → axisKw ≠ some a →
      arrayUfuncCall inputs axisKw = .ok a) := by
  refine ⟨?_, ?_, ?_⟩
  · intro h
    rcases mpiToNdarray_error_of_mismatch inputs h with ⟨e, he⟩
    exact ⟨e, by simp [arrayUfuncCall, he]⟩
  · intro h hkw
    have hok := mpiToNdarray_ok_of_all_eq inputs a hne h
    have hEq : arrayUfuncCall inputs axisKw =
        .error "operations along the distributed axis are not allowed" := by
      simp only [arrayUfuncCall, hok]
      rw [if_pos hkw]
    exact ⟨_, hEq⟩
  · intro h hkw
    have hok := mpiToNdarray_ok_of_all_eq inputs a hne h
    simp only [arrayUfuncCall, hok]
    rw [if_neg hkw]

theorem c5_ufunc_axis_checks_witness :
    mpiAxes [UOperand.mpi 0 (5 : Int), UOperand.plain 2, UOperand.mpi 0 3] ≠ [] ∧
    ((∃ x ∈ mpiAxes [UOperand.mpi 0 (5 : Int), UOperand.plain 2, UOperand.mpi 0 3],
        ∃ y ∈ mpiAxes [UOperand.mpi 0 (5 : Int), UOperand.plain 2, UOperand.mpi 0 3],
          x ≠ y) →
      ∃ e, arrayUfuncCall [UOperand.mpi 0 (5 : Int), UOperand.plain 2, UOperand.mpi 0 3]
          (some 1) = .error e) ∧
    ((∀ x ∈ mpiAxes [UOperand.mpi 0 (5 : Int), UOperand.plain 2, UOperand.mpi 0 3],
        x = 0) → some 1 = some 0 →
      ∃ e, arrayUfuncCall [UOperand.mpi 0 (5 : Int), UOperand.plain 2, UOperand.mpi 0 3]
          (some 1) = .error e) ∧
    ((∀ x ∈ mpiAxes [UOperand.mpi 0 (5 : Int), UOperand.plain 2, UOperand.mpi 0 3],
        x = 0) → some 1 ≠ some 0 →
      arrayUfuncCall [UOperand.mpi 0 (5 : Int), UOperand.plain 2, UOperand.mpi 0 3]
          (some 1) = .ok 0) :=
  ⟨by decide,
    c5_ufunc_axis_checks Int [UOperand.mpi 0 (5 : Int), UOperand.plain 2, UOperand.mpi 0 3]
      (some 1) 0 (by decide)⟩

/-!
## `MPIArray.wrap` validation (lines 643-708)

`wrap` sums the per-rank claimed extents of the distributed axis with an
all-reduce, re-derives the balanced split of the total and all-reduces (MAX)
the per-rank mismatch flag, so every rank raises together when any rank's
claimed extent is wrong.  The all-reduce operations live in `caput/mpiutil.py`
(not under src/) and are modelled from the spec as the exact sum and the
any-rank disjunction.  Only the distributed-axis metadata is modelled:
`axlens` lists each rank's claimed local extent.
-/

/-- `MPIArray.wrap` at rank `r`, distributed-axis metadata only: returns the
global extent, this rank's local offset and local extent, or the layout
error raised on every rank when any rank's claimed extent differs from its
balanced share. -/
def wrapCheck (axlens : List Nat) (r : Nat) : Except String (Nat × Nat × Nat) :=
  let size := axlens.length
  let total := axlens.sum
  let layoutIssue :=
    (List.range size).any (fun q => axlens.getD q 0 != splitExtent total size q)
  if layoutIssue then
    .error "Cannot wrap, distributed axis local length is incorrect."
  else .ok (total, splitOffset total size r, splitExtent total size r)

theorem wrapCheck_layout_issue_iff (axlens : List Nat) :
    ((List.range axlens.length).any
        (fun q => axlens.getD q 0 != splitExtent axlens.sum axlens.length q)) = true ↔
      ∃ q < axlens.length,
        axlens.getD q 0 ≠ splitExtent axlens.sum axlens.length q := by
  rw [List.any_eq_true]
  constructor
  · rintro ⟨q, hq, hne⟩
    exact ⟨q, List.mem_range.mp hq, by simpa using hne⟩
  · rintro ⟨q, hq, hne⟩
    exact ⟨q, List.mem_range.mpr hq, by simpa using hne⟩

/-- Claim C8: `wrap` computes the global extent as the all-reduce sum of the
ranks' claimed local extents and re-derives the balanced split; whenever any
rank's claimed extent differs from its expected share, every rank fails with
the layout error (the mismatch flag is itself all-reduced); when all claimed
extents match, the wrapped metadata is the summed global extent and the
rank's balanced-split offset and extent. -/
theorem c8_wrap_validation (axlens : List Nat) (r : Nat) (hr : r < axlens.length) :
    ((∃ q < axlens.length,
        axlens.getD q 0 ≠ splitExtent axlens.sum axlens.length q) →
      ∀ q2 < axlens.length, ∃ e, wrapCheck axlens q2 = .error e) ∧
    ((∀ q < axlens.length,
        axlens.getD q 0 = splitExtent axlens.sum axlens.length q) →
      wrapCheck axlens r =
        .ok (axlens.sum, splitOffset axlens.sum axlens.length r,
          splitExtent axlens.sum axlens.length r)) := by
  constructor
  · intro h q2 _
    have hissue := (wrapCheck_layout_issue_iff axlens).mpr h
    have hEq : wrapCheck axlens q2 =
        .error "Cannot wrap, distributed axis local length is incorrect." := by
      simp only [wrapCheck]
      rw [if_pos hissue]
    exact ⟨_, hEq⟩
  · intro h
    have hissue :
        ¬ ((List.range axlens.length).any
          (fun q => axlens.getD q 0 != splitExtent axlens.sum axlens.length q)) = true := by
      rw [wrapCheck_layout_issue_iff]
      rintro ⟨q, hq, hne⟩
      exact hne (h q hq)
    simp only [wrapCheck]
    rw [if_neg hissue]

theorem c8_wrap_validation_witness :
    2 < 3 ∧
    ((∃ q < 3, [3, 3, 2].getD q 0 ≠ splitExtent ([3, 3, 2] : List Nat).sum 3 q) →
      ∀ q2 < 3, ∃ e, wrapCheck [3, 3, 2] q2 = .error e) ∧
    ((∀ q < 3, [3, 3, 2].getD q 0 = splitExtent ([3, 3, 2] : List Nat).sum 3 q) →
      wrapCheck [3, 3, 2] 2 =
        .ok (([3, 3, 2] : List Nat).sum, splitOffset ([3, 3, 2] : List Nat).sum 3 2,
          splitExtent ([3, 3, 2] : List Nat).sum 3 2)) :=
  ⟨by decide, c8_wrap_validation [3, 3, 2] 2 (by decide)⟩

/-!
## Full reduction to a scalar (`__array_ufunc__` reduce branch,
lines 1397-1440)

A reduction over all axes produces a dimensionless local result on each
rank (the local reduction of that rank's slab); the scalar is reshaped to a
one-element vector and passed through `MPIArray.wrap` with axis 0, so the
result's global extent is the communicator size with one element per rank.
-/

/-- The full-reduction (sum over all axes) dispatch at rank `r`: the local
slab is reduced locally, reshaped to length 1 and wrapped over axis 0
(line 1438).  Wrapping validates the all-ones extent list; on success the
result carries the global extent, this rank's offset and its one-element
local data. -/
def fullReduceDispatch (slabs : List (List Int)) (r : Nat) :
    Except String (Nat × Nat × List Int) :=
  match wrapCheck (List.replicate slabs.length 1) r with
  | .error e => .error e
  | .ok (total, off, _) => .ok (total, off, [(slabs.getD r []).sum])

theorem splitExtent_self_one (s q : Nat) (hs : 0 < s) : splitExtent s s q = 1 := by
  unfold splitExtent
  rw [Nat.div_self hs, Nat.mod_self]
  simp

theorem splitOffset_self_id (s r : Nat) (hs : 0 < s) : splitOffset s s r = r := by
  unfold splitOffset
  rw [Nat.div_self hs, Nat.mod_self]
  omega

theorem wrapCheck_replicate_one (s r : Nat) (hs : 0 < s) :
    wrapCheck (List.replicate s 1) r = .ok (s, r, 1) := by
  have hsum : (List.replicate s 1).sum = s := by
    simp [List.sum_replicate]
  have hlen : (List.replicate s 1).length = s := List.length_replicate s 1
  have hissue :
      ¬ ((List.range (List.replicate s 1).length).any
        (fun q => (List.replicate s 1).getD q 0 !=
          splitExtent (List.replicate s 1).sum (List.replicate s 1).length q)) = true := by
    rw [wrapCheck_layout_issue_iff]
    rintro ⟨q, hq, hne⟩
    rw [hlen] at hq
    apply hne
    rw [hsum, hlen, splitExtent_self_one s q hs]
    rw [List.getD_eq_getElem?_getD, List.getElem?_replicate]
    simp [hq]
  simp only [wrapCheck]
  rw [if_neg hissue, hsum, hlen, splitExtent_self_one s r hs,
    splitOffset_self_id s r hs]

/-- The claim of C6 is falsified by the code at a concrete input: on a
communicator of size 2 with local slabs `[1]` and `[2]`, a full sum gives
rank 0 the value 1 — the local sum of its own slab — while the serial
reference sum of the whole global array is 3, and the result's global
extent is 2 (the communicator size), not 1. -/
theorem c6_counterexample :
    fullReduceDispatch [[1], [2]] 0 = .ok (2, 0, [1]) ∧
    ([1, 2] : List Int).sum = 3 ∧ (1 : Int) ≠ 3 ∧ (2 : Nat) ≠ 1 := by
  exact ⟨rfl, by decide, by decide, by decide⟩

/-- Claim C6 (amended): a reduction over all axes of a distributed array
returns, on every rank, a one-element local array wrapped over axis 0 with
global extent equal to the communicator size and local offset equal to the
rank, where rank `r`'s element is the serial reduction of rank `r`'s own
local slab; only on a communicator of size 1 does the value equal the
serial reference reduction of the whole global array. -/
theorem c6_full_reduction (slabs : List (List Int)) (r : Nat)
    (hr : r < slabs.length) :
    fullReduceDispatch slabs r =
      .ok (slabs.length, r, [(slabs.getD r []).sum]) ∧
    (slabs.length = 1 → (slabs.getD r []).sum = slabs.flatten.sum) := by
  constructor
  · rw [fullReduceDispatch, wrapCheck_replicate_one slabs.length r (by omega)]
  · intro h1
    have hr0 : r = 0 := by omega
    subst hr0
    rcases slabs with _ | ⟨hd, tl⟩
    · simp at h1
    · have htl : tl = [] := by
        simpa using h1
      subst htl
      simp

theorem c6_full_reduction_witness :
    0 < 2 ∧
    (fullReduceDispatch [[1, 5], [2, 6]] 0 =
        .ok (2, 0, [([1, 5] : List Int).sum]) ∧
      (([[1, 5], [2, 6]] : List (List Int)).length = 1 →
        (([[1, 5], [2, 6]] : List (List Int)).getD 0 []).sum =
          ([[1, 5], [2, 6]] : List (List Int)).flatten.sum)) := by
  refine ⟨by decide, ?_⟩
  have h := c6_full_reduction [[1, 5], [2, 6]] 0 (by decide)
  simpa using h

/-!
## I/O partition planning (`MPIArray._partition_io`, lines 1284-1331)

The plan bounds the worst-case per-rank transfer: the largest per-rank byte
count is max-all-reduced, the required split count is the ceiling of its
ratio to the threshold, and the first axis (in scan order) that is not the
distributed axis and is long enough is split into that many balanced
contiguous ranges with the same balanced-split function as distribution
(`mpiutil.split_m`).  Partitions are represented as `(start, stop)` pairs.
-/

/-- The `for split_axis in range(ndim)` scan (lines 1315-1317): the first
axis that differs from the distributed axis and whose global extent is at
least the split count. -/
def findAxisAux (gs : List Nat) (axis numSplit : Nat) : Nat → Nat → Option Nat
  | 0, _ => none
  | fuel + 1, sa =>
      if sa ≠ axis ∧ numSplit ≤ gs.getD sa 0 then some sa
      else findAxisAux gs axis numSplit fuel (sa + 1)

/-- The first qualifying split axis, scanning axes in order. -/
def findSplitAxis (gs : List Nat) (axis numSplit : Nat) : Option Nat :=
  findAxisAux gs axis numSplit gs.length 0

/-- `MPIArray._partition_io`: `gs` is the global shape, `axis` the
distributed axis, `localShape0` this rank's local extent of axis 0,
`nbytes` the per-rank local byte counts (max-all-reduced inside, line 1304)
and `thresholdBytes` the byte threshold.  Returns the split axis and the
partition ranges, or the error raised when the array cannot be
partitioned. -/
def partitionIo (gs : List Nat) (axis localShape0 : Nat) (nbytes : List Nat)
    (thresholdBytes : Nat) (skip : Bool) : Except String (Nat × List (Nat × Nat)) :=
  let largest := nbytes.foldr max 0
  let numSplit := (largest + thresholdBytes - 1) / thresholdBytes
  if skip = true ∨ numSplit = 1 then .ok (0, [(0, localShape0)])
  else if gs.length = 1 then
    .error "To parition an array we must have multiple axes."
  else
    match findSplitAxis gs axis numSplit with
    | none => .error "Cannot identify an IO partition less than threshold"
    | some sa =>
        .ok (sa, (List.range numSplit).map
          (fun k => (splitOffset (gs.getD sa 0) numSplit k,
            splitOffset (gs.getD sa 0) numSplit (k + 1))))

theorem findAxisAux_some_spec (gs : List Nat) (axis numSplit : Nat) :
    ∀ fuel sa0 sa, findAxisAux gs axis numSplit fuel sa0 = some sa →
      sa0 ≤ sa ∧ sa < sa0 + fuel ∧ sa ≠ axis ∧ numSplit ≤ gs.getD sa 0 ∧
      ∀ q, sa0 ≤ q → q < sa → (q = axis ∨ gs.getD q 0 < numSplit) := by
  intro fuel
  induction fuel with
  | zero =>
      intro sa0 sa h
      simp [findAxisAux] at h
  | succ fuel ih =>
      intro sa0 sa h
      by_cases hc : sa0 ≠ axis ∧ numSplit ≤ gs.getD sa0 0
      · rw [findAxisAux, if_pos hc] at h
        obtain rfl : sa0 = sa := by simpa using h
        exact ⟨Nat.le_refl _, by omega, hc.1, hc.2, fun q hq1 hq2 => by omega⟩
      · rw [findAxisAux, if_neg hc] at h
        obtain ⟨h1, h2, h3, h4, h5⟩ := ih (sa0 + 1) sa h
        refine ⟨by omega, by omega, h3, h4, ?_⟩
        intro q hq1 hq2
        by_cases hq0 : q = sa0
        · subst hq0
          by_cases hqa : q = axis
          · exact Or.inl hqa
          · right
            by_contra hlt
            exact hc ⟨hqa, by omega⟩
        · exact h5 q (by omega) hq2

theorem findAxisAux_none_spec (gs : List Nat) (axis numSplit : Nat) :
    ∀ fuel sa0, findAxisAux gs axis numSplit fuel sa0 = none →
      ∀ q, sa0 ≤ q → q < sa0 + fuel → (q = axis ∨ gs.getD q 0 < numSplit) := by
  intro fuel
  induction fuel with
  | zero =>
      intro sa0 _ q hq1 hq2
      omega
  | succ fuel ih =>
      intro sa0 h q hq1 hq2
      by_cases hc : sa0 ≠ axis ∧ numSplit ≤ gs.getD sa0 0
      · rw [findAxisAux, if_pos hc] at h
        exact absurd h (by simp)
      · rw [findAxisAux, if_neg hc] at h
        by_cases hq0 : q = sa0
        · subst hq0
          by_cases hqa : q = axis
          · exact Or.inl hqa
          · right
            by_contra hlt
            exact hc ⟨hqa, by omega⟩
        · exact ih (sa0 + 1) h q (by omega) (by omega)

theorem findAxisAux_none_of_all (gs : List Nat) (axis numSplit : Nat) :
    ∀ fuel sa0,
      (∀ q, sa0 ≤ q → q < sa0 + fuel → (q = axis ∨ gs.getD q 0 < numSplit)) →
      findAxisAux gs axis numSplit fuel sa0 = none := by
  intro fuel
  induction fuel with
  | zero =>
      intro sa0 _
      rfl
  | succ fuel ih =>
      intro sa0 h
      have h0 := h sa0 (Nat.le_refl _) (by omega)
      have hc : ¬(sa0 ≠ axis ∧ numSplit ≤ gs.getD sa0 0) := by
        rcases h0 with h0 | h0
        · intro hc
          exact hc.1 h0
        · intro hc
          omega
      rw [findAxisAux, if_neg hc]
      exact ih (sa0 + 1) (fun q hq1 hq2 => h q (by omega) (by omega))

theorem ceilDiv_eq_one (largest t : Nat) (ht : 0 < t) (h1 : 0 < largest)
    (h2 : largest ≤ t) : (largest + t - 1) / t = 1 := by
  have hle : 1 ≤ (largest + t - 1) / t := by
    rw [Nat.le_div_iff_mul_le ht]
    omega
  have hlt : (largest + t - 1) / t < 2 := by
    rw [Nat.div_lt_iff_lt_mul ht]
    omega
  omega

theorem ceilDiv_ge_two (largest t : Nat) (ht : 0 < t) (h : t < largest) :
    2 ≤ (largest + t - 1) / t := by
  rw [Nat.le_div_iff_mul_le ht]
  omega

/-- Claim C7: when the maximum per-rank local byte count is under the
threshold (and positive), a single partition covering the whole local
extent is returned; when it exceeds the threshold, the split count is the
ceiling of the ratio, the plan errors when no axis other than the
distributed one has global extent at least the split count, and otherwise
the chosen axis is the first qualifying axis in scan order and it is
partitioned into exactly split-count contiguous ranges by the same
balanced-split function used for distribution. -/
theorem c7_partition_io (gs : List Nat) (axis localShape0 : Nat)
    (nbytes : List Nat) (t : Nat) (ht : 0 < t) :
    (0 < nbytes.foldr max 0 → nbytes.foldr max 0 ≤ t →
      partitionIo gs axis localShape0 nbytes t false = .ok (0, [(0, localShape0)])) ∧
    (t < nbytes.foldr max 0 →
      ((∀ sa, sa < gs.length →
          (sa = axis ∨ gs.getD sa 0 < (nbytes.foldr max 0 + t - 1) / t)) →
        ∃ e, partitionIo gs axis localShape0 nbytes t false = .error e) ∧
      (∀ sa parts,
        partitionIo gs axis localShape0 nbytes t false = .ok (sa, parts) →
          sa < gs.length ∧ sa ≠ axis ∧
          (nbytes.foldr max 0 + t - 1) / t ≤ gs.getD sa 0 ∧
          (∀ q, q < sa → (q = axis ∨ gs.getD q 0 < (nbytes.foldr max 0 + t - 1) / t)) ∧
          parts.length = (nbytes.foldr max 0 + t - 1) / t ∧
          (∀ k, k < (nbytes.foldr max 0 + t - 1) / t →
            parts.getD k (0, 0) =
              (splitOffset (gs.getD sa 0) ((nbytes.foldr max 0 + t - 1) / t) k,
                splitOffset (gs.getD sa 0) ((nbytes.foldr max 0 + t - 1) / t) (k + 1))))) := by
  set largest := nbytes.foldr max 0 with hlargest
  set m := (largest + t - 1) / t with hm
  constructor
  · intro h1 h2
    have hone : m = 1 := ceilDiv_eq_one largest t ht h1 h2
    simp only [partitionIo]
    rw [if_pos (Or.inr hone)]
  · intro hover
    have htwo : 2 ≤ m := ceilDiv_ge_two largest t ht hover
    have hcond : ¬(false = true ∨ m = 1) := by
      simp
      omega
    constructor
    · intro hall
      by_cases hlen : gs.length = 1
      · have hEq : partitionIo gs axis localShape0 nbytes t false =
            .error "To parition an array we must have multiple axes." := by
          simp only [partitionIo]
          rw [if_neg hcond, if_pos hlen]
        exact ⟨_, hEq⟩
      · have hfind : findSplitAxis gs axis m = none := by
          unfold findSplitAxis
          exact findAxisAux_none_of_all gs axis m gs.length 0
            (fun q hq1 hq2 => hall q (by omega))
        have hEq : partitionIo gs axis localShape0 nbytes t false =
            .error "Cannot identify an IO partition less than threshold" := by
          simp only [partitionIo]
          rw [if_neg hcond, if_neg hlen, hfind]
        exact ⟨_, hEq⟩
    · intro sa parts hok
      simp only [partitionIo] at hok
      rw [if_neg hcond] at hok
      by_cases hlen : gs.length = 1
      · rw [if_pos hlen] at hok
        exact absurd hok (by simp)
      · rw [if_neg hlen] at hok
        rcases hfind : findSplitAxis gs axis m with _ | sa2
        · rw [hfind] at hok
          exact absurd hok (by simp)
        · rw [hfind] at hok
          simp only [Except.ok.injEq, Prod.mk.injEq] at hok
          obtain ⟨rfl, rfl⟩ := hok
          obtain ⟨hs1, hs2, hs3, hs4, hs5⟩ :=
            findAxisAux_some_spec gs axis m gs.length 0 sa2 hfind
          refine ⟨by omega, hs3, hs4, fun q hq => hs5 q (by omega) hq, by simp, ?_⟩
          intro k hk
          rw [List.getD_eq_getElem?_getD, List.getElem?_map, List.getElem?_range hk]
          rfl

theorem c7_partition_io_witness :
    0 < 10 ∧
    ((0 < ([25] : List Nat).foldr max 0 → ([25] : List Nat).foldr max 0 ≤ 10 →
        partitionIo [4, 6] 0 4 [25] 10 false = .ok (0, [(0, 4)])) ∧
      (10 < ([25] : List Nat).foldr max 0 →
        ((∀ sa, sa < ([4, 6] : List Nat).length →
            (sa = 0 ∨ [4, 6].getD sa 0 < (([25] : List Nat).foldr max 0 + 10 - 1) / 10)) →
          ∃ e, partitionIo [4, 6] 0 4 [25] 10 false = .error e) ∧
        (∀ sa parts,
          partitionIo [4, 6] 0 4 [25] 10 false = .ok (sa, parts) →
            sa < ([4, 6] : List Nat).length ∧ sa ≠ 0 ∧
            (([25] : List Nat).foldr max 0 + 10 - 1) / 10 ≤ [4, 6].getD sa 0 ∧
            (∀ q, q < sa →
              (q = 0 ∨ [4, 6].getD q 0 < (([25] : List Nat).foldr max 0 + 10 - 1) / 10)) ∧
            parts.length = (([25] : List Nat).foldr max 0 + 10 - 1) / 10 ∧
            (∀ k, k < (([25] : List Nat).foldr max 0 + 10 - 1) / 10 →
              parts.getD k (0, 0) =
                (splitOffset ([4, 6].getD sa 0) ((([25] : List Nat).foldr max 0 + 10 - 1) / 10) k,
                  splitOffset ([4, 6].getD sa 0)
                    ((([25] : List Nat).foldr max 0 + 10 - 1) / 10) (k + 1)))))) :=
  ⟨by decide, c7_partition_io [4, 6] 0 4 [25] 10 (by decide)⟩

/-!
## Direct subscripting (`MPIArray.__getitem__`, lines 390-421)

When the subscript entry on the distributed axis is not the full slice and
not `slice(0, local_length)`, the method warns and indexes the rank-local
buffer directly, for both an integer index and a proper sub-slice.  The
local buffer on the distributed axis is modelled as a list; `glen` and
`off` carry the array's global extent and local offset so their
non-involvement can be stated.  Numpy local indexing is modelled for
integer indices (with negative wrap-around and `none` for an out-of-range
index, numpy's `IndexError`) and for slices with an absent or positive
step.
-/

/-- The subscript entry on the distributed axis. -/
inductive DistIdx where
  | int (i : Int)
  | slc (s e st : Option Int)

/-- The result of direct subscripting on the distributed axis. -/
inductive DirectGet (α : Type) where
  | mpiView
  | localInt (v : Option α)
  | localSlice (v : List α)

/-- Numpy integer indexing of the rank-local buffer: negative indices wrap
against the local length; out of range is `IndexError` (`none`). -/
def npIntIndex (loc : List α) (i : Int) : Option α :=
  let i2 := if i < 0 then i + loc.length else i
  if 0 ≤ i2 ∧ i2 < loc.length then loc.get? i2.toNat else none

/-- Numpy basic slicing of the rank-local buffer for an absent or positive
step: endpoints resolve negatives against the local length and clamp into
range. -/
def npSliceIndex (loc : List α) (s e st : Option Int) : List α :=
  let a0 := match s with
    | some x => if x < 0 then x + loc.length else x
    | none => 0
  let b0 := match e with
    | some x => if x < 0 then x + loc.length else x
    | none => (loc.length : Int)
  let a := max 0 (min a0 (loc.length : Int))
  let b := max 0 (min b0 (loc.length : Int))
  (slicePositions a b (st.getD 1)).filterMap (fun k => loc.get? k.toNat)

/-- `MPIArray.__getitem__` restricted to the distributed-axis entry of the
subscript (lines 400-421): the full slice and `slice(0, local_length)` fall
through to the distributed view; anything else warns (the Bool) and indexes
the rank-local buffer directly.  `glen` and `off` are the global extent and
local offset, which this path never reads. -/
def directGetItem (glen off : Nat) (loc : List α) (idx : DistIdx) :
    Bool × DirectGet α :=
  match idx with
  | .int i => (true, .localInt (npIntIndex loc i))
  | .slc s e st =>
      if (s = none ∧ e = none ∧ st = none) ∨
          (s = some 0 ∧ e = some (loc.length : Int) ∧ st = none) then
        (false, .mpiView)
      else (true, .localSlice (npSliceIndex loc s e st))

/-- Claim C10: direct subscripting with an integer index or a proper
sub-slice on the distributed axis takes the deprecation-warning path on
every rank and returns exactly the rank-local indexing result — a plain
local (numpy) value, identical to subscripting `local_array` — without
raising any distributed-axis error of its own, and the result does not
depend on the global extent or the local offset (no global offsets are
consulted, hence no communication). -/
theorem c10_direct_getitem (α : Type) (glen off glen2 off2 : Nat)
    (loc : List α) (idx : DistIdx)
    (h : (∃ i, idx = .int i) ∨
      (∃ s e st, idx = .slc s e st ∧
        ¬((s = none ∧ e = none ∧ st = none) ∨
          (s = some 0 ∧ e = some (loc.length : Int) ∧ st = none)))) :
    (directGetItem glen off loc idx).1 = true ∧
    (∀ i, idx = .int i →
      (directGetItem glen off loc idx).2 = .localInt (npIntIndex loc i)) ∧
    (∀ s e st, idx = .slc s e st →
      (directGetItem glen off loc idx).2 = .localSlice (npSliceIndex loc s e st)) ∧
    directGetItem glen off loc idx = directGetItem glen2 off2 loc idx := by
  rcases h with ⟨i, rfl⟩ | ⟨s, e, st, rfl, hns⟩
  · refine ⟨rfl, ?_, ?_, rfl⟩
    · intro i2 hi2
      obtain rfl : i = i2 := by
        cases hi2
        rfl
      rfl
    · intro s e st hse
      exact absurd hse (by simp)
  · refine ⟨?_, ?_, ?_, rfl⟩
    · simp only [directGetItem]
      rw [if_neg hns]
    · intro i2 hi2
      exact absurd hi2 (by simp)
    · intro s2 e2 st2 hse
      obtain ⟨rfl, rfl, rfl⟩ : s = s2 ∧ e = e2 ∧ st = st2 := by
        cases hse
        exact ⟨rfl, rfl, rfl⟩
      simp only [directGetItem]
      rw [if_neg hns]

theorem c10_direct_getitem_witness :
    ((∃ i, DistIdx.int 1 = DistIdx.int i) ∨
      (∃ s e st, DistIdx.int 1 = DistIdx.slc s e st ∧
        ¬((s = none ∧ e = none ∧ st = none) ∨
          (s = some 0 ∧ e = some (([5, 9] : List Int).length : Int) ∧ st = none)))) ∧
    ((directGetItem 8 2 [(5 : Int), 9] (DistIdx.int 1)).1 = true ∧
      (∀ i, DistIdx.int 1 = DistIdx.int i →
        (directGetItem 8 2 [(5 : Int), 9] (DistIdx.int 1)).2 =
          .localInt (npIntIndex [(5 : Int), 9] i)) ∧
      (∀ s e st, DistIdx.int 1 = DistIdx.slc s e st →
        (directGetItem 8 2 [(5 : Int), 9] (DistIdx.int 1)).2 =
          .localSlice (npSliceIndex [(5 : Int), 9] s e st)) ∧
      directGetItem 8 2 [(5 : Int), 9] (DistIdx.int 1) =
        directGetItem 4 0 [(5 : Int), 9] (DistIdx.int 1)) :=
  ⟨Or.inl ⟨1, rfl⟩,
    c10_direct_getitem Int 8 2 4 0 [(5 : Int), 9] (DistIdx.int 1) (Or.inl ⟨1, rfl⟩)⟩

end Caput
